import Mathlib

/-!
Verification of the poker MCTS equity estimator.

This file gives a shallow embedding of the core of the repository
(`deck.py`, `evaluator.py`, `mcts.py`, `main.py`) and proves the frozen
claims about it.  Pure Python functions become Lean functions; the
mutable MCTS tree becomes an inductive tree with path-based functional
updates; the ambient randomness (shuffling, `random.sample`) and the
real-valued UCB1 choice are abstracted as oracle parameters, so the
theorems about the search loop hold for every draw of the randomness.
-/

/-! ## Card model (deck.py) -/

/-- A playing card, `Card(card_num, suit)` of deck.py.  Ranks and suits are
single characters (`2`..`9`, `T`, `J`, `Q`, `K`, `A` and `C`, `D`, `H`, `S`);
equality compares both fields, as `Card.__eq__` does. -/
structure Card where
  card_num : Char
  suit : Char
deriving DecidableEq, Repr

/-! ## Hand evaluator (evaluator.py) -/

/-- `CARD_VALUE_MAP` of evaluator.py: the integer value of a rank character.
The Python dict raises on other keys; callers only pass the 13 valid rank
characters, and the catch-all returns 0 for totality. -/
def cardValue (c : Card) : Nat :=
  match c.card_num with
  | '2' => 2 | '3' => 3 | '4' => 4 | '5' => 5 | '6' => 6
  | '7' => 7 | '8' => 8 | '9' => 9 | 'T' => 10
  | 'J' => 11 | 'Q' => 12 | 'K' => 13 | 'A' => 14
  | _ => 0

/-- Insert into a descending-sorted list, keeping it descending. -/
def insertDesc (a : Nat) : List Nat → List Nat
  | [] => [a]
  | b :: bs => if b < a then a :: b :: bs else b :: insertDesc a bs

/-- Python `sorted(values, reverse=True)`: the same multiset, sorted
descending (insertion sort; on `Nat` the result is the one Python produces). -/
def sortDesc (l : List Nat) : List Nat := l.foldr insertDesc []

/-- The distinct elements of a list in first-occurrence order: the key order
of a Python `Counter`/`dict` built by scanning the list. -/
def pyDedup {α : Type} [DecidableEq α] : List α → List α
  | [] => []
  | v :: vs => v :: (pyDedup vs).filter (fun x => x ≠ v)

/-- Python `max(values)` for the nonempty lists of card values the evaluator
builds (on an empty list Python raises; 0 here keeps the function total). -/
def listMax (l : List Nat) : Nat := l.foldl Nat.max 0

/-- The window scan of `check_straight`: some 5-length window of the
distinct descending values spans exactly 4
(`values[i] - values[i + 4] == 4` for some `i < len(values) - 4`). -/
def straightWindow (vs : List Nat) : Bool :=
  (List.range (vs.length - 4)).any
    (fun i => (vs.getD i 0 : Int) - (vs.getD (i+4) 0 : Int) == 4)

/-- `check_straight` of evaluator.py: deduplicate, sort descending, accept a
5-length window spanning exactly 4, or the wheel `{14, 2, 3, 4, 5}` as a
subset of the values. -/
def check_straight (values : List Nat) : Bool :=
  let vs := sortDesc (pyDedup values)
  straightWindow vs || [14, 2, 3, 4, 5].all (fun v => vs.contains v)

/-- `Counter(values).items()` in insertion order: each distinct value, in
first-occurrence order, with its multiplicity. -/
def counterItems (values : List Nat) : List (Nat × Nat) :=
  (pyDedup values).map (fun v => (v, values.count v))

/-- `k in Counter(values).values()`. -/
def hasCount (values : List Nat) (k : Nat) : Bool :=
  (counterItems values).any (fun it => it.2 == k)

/-- `next(value for value, count in value_counts.items() if count == k)`:
the first value (in `Counter` insertion order) with multiplicity `k`.
Callers guard with `hasCount`, so the 0 default is never the result used. -/
def firstWithCount (values : List Nat) (k : Nat) : Nat :=
  (((counterItems values).find? (fun it => it.2 == k)).map Prod.fst).getD 0

/-- A hand rank `(category, tiebreak list)`, compared as Python compares
`tuple[int, list[int]]`. -/
abbrev HandRank := Int × List Nat

/-- `rank_five_card_hand` of evaluator.py: the category and tiebreak list of
a 5-card hand, following the fixed precedence chain of the source. -/
def rank_five_card_hand (hand : List Card) : HandRank :=
  let values := sortDesc (hand.map cardValue)
  let suits := hand.map Card.suit
  let is_flush := (pyDedup suits).length == 1
  let is_straight := check_straight values
  if is_flush && is_straight then
    if listMax values == 14 then (9, values) else (8, values)
  else if hasCount values 4 then
    let four := firstWithCount values 4
    let high := listMax (values.filter (fun v => v ≠ four))
    (7, [four, high])
  else if hasCount values 3 && hasCount values 2 then
    (6, [firstWithCount values 3, firstWithCount values 2])
  else if is_flush then (5, values)
  else if is_straight then (4, values)
  else if hasCount values 3 then
    let three := firstWithCount values 3
    let highs := (sortDesc (values.filter (fun v => v ≠ three))).take 2
    (3, three :: highs)
  else if ((counterItems values).map Prod.snd).count 2 == 2 then
    let pairs := sortDesc (((counterItems values).filter (fun it => it.2 == 2)).map Prod.fst)
    let kicker := listMax (values.filter (fun v => ¬ pairs.contains v))
    (2, pairs ++ [kicker])
  else if hasCount values 2 then
    let pair := firstWithCount values 2
    let highs := (sortDesc (values.filter (fun v => v ≠ pair))).take 3
    (1, pair :: highs)
  else (0, values)

/-- Python `<` on `list[int]`: lexicographic, a strict prefix is smaller. -/
def listLt : List Nat → List Nat → Bool
  | [], [] => false
  | [], _ :: _ => true
  | _ :: _, [] => false
  | a :: as, b :: bs => if a < b then true else if b < a then false else listLt as bs

/-- Python `<` on `(category, tiebreak)` tuples: category first, then the
tiebreak lists lexicographically. -/
def rankLt (r s : HandRank) : Bool :=
  if r.1 < s.1 then true else if s.1 < r.1 then false else listLt r.2 s.2

/-- Python `max(a, b)`: the second argument only when it is strictly
greater. -/
def maxRank (a b : HandRank) : HandRank := if rankLt a b then b else a

/-- `itertools.combinations(l, n)`: every `n`-element sub-selection of `l`,
keeping the order of `l`, in the order itertools produces them. -/
def combinations {α : Type} : Nat → List α → List (List α)
  | 0, _ => [[]]
  | _+1, [] => []
  | n+1, x :: xs => ((combinations n xs).map (fun c => x :: c)) ++ combinations (n+1) xs

/-- `evaluate_hand` of evaluator.py: fold Python `max` of
`rank_five_card_hand` over all 5-card combinations, starting from the
sentinel `(-1, [])`. -/
def evaluate_hand (cards : List Card) : HandRank :=
  (combinations 5 cards).foldl (fun best c => maxRank best (rank_five_card_hand c)) (-1, [])

/-! ## Rollout (mcts.py, rollout_simulation) -/

/-- `rollout_simulation` of mcts.py: score both 7-card hands with
`evaluate_hand`; 1 when the player ranks strictly higher, 0 when strictly
lower, 1/2 on a tie.  Python `a > b` on rank tuples is `rankLt b a`. -/
def rollout_simulation (player_hand opponent_hand board : List Card) : ℚ :=
  let player_rank := evaluate_hand (player_hand ++ board)
  let opponent_rank := evaluate_hand (opponent_hand ++ board)
  if rankLt opponent_rank player_rank then 1
  else if rankLt player_rank opponent_rank then 0
  else 1/2

/-! ## CLI layer (main.py) -/

/-- `parse_cards` of main.py: a token of length other than 2 yields the
usage string (`Sum.inl`); otherwise the two uppercased `Card`s
(`Sum.inr`).  Python indexes `card[0]`, `card[1]` of a length-2 string. -/
def parse_cards (card1 card2 : String) : Sum String (List Card) :=
  if card1.length ≠ 2 ∨ card2.length ≠ 2 then
    Sum.inl "Cards must be in format like 'JD' or 'QS'"
  else
    Sum.inr [Card.mk (card1.toList.getD 0 ' ').toUpper (card1.toList.getD 1 ' ').toUpper,
             Card.mk (card2.toList.getD 0 ' ').toUpper (card2.toList.getD 1 ' ').toUpper]

/-- What `main` of main.py does with its arguments: print the usage line
and stop, or proceed to call `run_mcts` on whatever `parse_cards`
returned. -/
inductive MainOutcome where
  | usage : MainOutcome
  | search : Sum String (List Card) → MainOutcome
deriving DecidableEq

/-- `main` of main.py on `sys.argv` (program name included): with an
argument count other than 3 it prints usage and returns; otherwise it calls
`run_mcts` on the result of `parse_cards` without inspecting it. -/
def main_model (argv : List String) : MainOutcome :=
  if argv.length ≠ 3 then MainOutcome.usage
  else MainOutcome.search (parse_cards (argv.getD 1 "") (argv.getD 2 ""))

/-! ## MCTS tree model (mcts.py)

`MCTSNode` holds `wins`, `visits`, `untried_actions` and a mapping of
children; nodes mutate in place and point back to their parents.  Here a
node is a value `MTree.mk wins visits untried children`: the untried
actions are tracked by their count (which action a popped tuple holds does
not affect the claims below), children are kept in insertion order, and
the parent pointer is replaced by the path from the root, so
`backpropagate` becomes a functional update along a root-to-node path.
The random sampling (`random.sample`, shuffling) and the UCB1 choice of
`best_child` are abstracted as per-iteration oracle inputs; the theorems
hold for every value of these oracles, hence for the draws the Python
program makes. -/

inductive MTree : Type where
  | mk : ℚ → Nat → Nat → List MTree → MTree

/-- `self.wins` of an `MCTSNode` (a float in the source; results are the
exact values 0, 0.5, 1, so ℚ models them losslessly). -/
def MTree.wins : MTree → ℚ
  | .mk w _ _ _ => w

/-- `self.visits` of an `MCTSNode`. -/
def MTree.visits : MTree → Nat
  | .mk _ v _ _ => v

/-- `len(self.untried_actions)` of an `MCTSNode`. -/
def MTree.untried : MTree → Nat
  | .mk _ _ u _ => u

/-- `self.children.values()` of an `MCTSNode`, in insertion order. -/
def MTree.children : MTree → List MTree
  | .mk _ _ _ cs => cs

/-- The selection loop of `run_mcts`: starting at the root, while the node
is fully expanded (`untried == 0`) and has children, descend into the
child `best_child` picks.  The choice is the oracle `pick`; descent stops
if `pick` ever steps outside the children list (with the actual
`best_child` it never does, see the C9 theorem).  Returns the path of
child indices from the root to the selected node. -/
def selectPath (pick : MTree → Nat) (t : MTree) : List Nat :=
  if t.untried == 0 && !t.children.isEmpty then
    if h : pick t < t.children.length then
      pick t :: selectPath pick (t.children.get ⟨pick t, h⟩)
    else []
  else []
termination_by sizeOf t
decreasing_by
  have h1 : sizeOf (t.children.get ⟨pick t, h⟩) < sizeOf t.children :=
    List.sizeOf_lt_of_mem (t.children.get_mem _ _)
  have h2 : sizeOf t.children < sizeOf t := by
    cases t with
    | mk w v u cs =>
      show sizeOf cs < sizeOf (MTree.mk w v u cs)
      simp only [MTree.mk.sizeOf_spec]
      omega
  omega

/-- The node reached from `t` by following a path of child indices. -/
def subtreeAt : MTree → List Nat → Option MTree
  | t, [] => some t
  | t, i :: p =>
    match t.children[i]? with
    | some c => subtreeAt c p
    | none => none

/-- `MCTSNode.backpropagate` of mcts.py: add `result` to `wins` and 1 to
`visits` on the node at the end of the path and on every ancestor up to
and including the root.  The Python walk goes child-to-parent through
`self.parent`; on the functional tree the same update runs root-down along
the path. -/
def backpropagate (result : ℚ) : MTree → List Nat → MTree
  | .mk w v u cs, [] => .mk (w + result) (v + 1) u cs
  | .mk w v u cs, i :: p =>
    match cs[i]? with
    | some c => .mk (w + result) (v + 1) u (cs.set i (backpropagate result c p))
    | none => .mk (w + result) (v + 1) u cs

/-- The expansion phase at the node reached by computing the path: if it has
untried actions, `expand` pops one (count decremented), appends a fresh
child (`wins = 0`, `visits = 0` as in `MCTSNode.__init__`) whose
untried-action sample has `freshU` elements, and descends into it.
Returns the updated tree and the path to the node to simulate. -/
def expandAt (freshU : Nat) : MTree → List Nat → MTree × List Nat
  | .mk w v u cs, [] =>
    if u ≠ 0 then (.mk w v (u - 1) (cs ++ [.mk 0 0 freshU []]), [cs.length])
    else (.mk w v u cs, [])
  | .mk w v u cs, i :: p =>
    match cs[i]? with
    | some c =>
      let r := expandAt freshU c p
      (.mk w v u (cs.set i r.1), i :: r.2)
    | none => (.mk w v u cs, [])

/-- One iteration of the `run_mcts` loop: selection, expansion, then
simulation and backpropagation from the simulated node.  `result` is the
rollout outcome the simulation produced. -/
def mctsIteration (pick : MTree → Nat) (freshU : Nat) (result : ℚ) (t : MTree) : MTree :=
  let p := selectPath pick t
  let er := expandAt freshU t p
  backpropagate result er.1 er.2

/-- The oracle inputs one iteration consumes: the `best_child` choice
during selection, the size of the fresh sample given to the expanded
child, and the rollout result. -/
structure IterOracle where
  pick : MTree → Nat
  freshU : Nat
  result : ℚ

/-- The iteration loop of `run_mcts`: one `mctsIteration` per oracle entry. -/
def runIters (oracles : List IterOracle) (t : MTree) : MTree :=
  oracles.foldl (fun s o => mctsIteration o.pick o.freshU o.result s) t

/-- The root `run_mcts` builds: `MCTSNode(state=[], stage=root)` whose
`untried_actions` is the sampled list of `u0` opponent hands. -/
def initRoot (u0 : Nat) : MTree := .mk 0 0 u0 []

/-- `run_mcts` of mcts.py after the loop: `0.0` when the root was never
visited, else `root.wins / root.visits`. -/
def run_mcts_model (u0 : Nat) (oracles : List IterOracle) : ℚ :=
  let root := runIters oracles (initRoot u0)
  if root.visits = 0 then 0 else root.wins / (root.visits : ℚ)

/-- The spec invariant `0 ≤ wins ≤ visits`, at every node of the tree. -/
inductive GoodTree : MTree → Prop where
  | mk : ∀ {w : ℚ} {v u : Nat} {cs : List MTree},
      0 ≤ w → w ≤ (v : ℚ) → (∀ c ∈ cs, GoodTree c) → GoodTree (.mk w v u cs)

/-- Every non-root node of the tree has been visited at least once (each
child is simulated and backpropagated in the iteration that creates it). -/
inductive ChildVisited : MTree → Prop where
  | mk : ∀ {w : ℚ} {v u : Nat} {cs : List MTree},
      (∀ c ∈ cs, 1 ≤ c.visits) → (∀ c ∈ cs, ChildVisited c) → ChildVisited (.mk w v u cs)

/-- `n` of `best_child`: the total visit count over the children. -/
def sumVisits (cs : List MTree) : Nat := (cs.map MTree.visits).sum

/-- `MCTSNode.ucb1` of mcts.py:
`wins / visits + c * sqrt(log(n) / visits)`.  Python floats are modelled
by the reals; the C9 theorem shows the divisors are nonzero and the log
argument is positive whenever the source evaluates this expression. -/
noncomputable def ucb1 (t : MTree) (n : Nat) (c : ℝ) : ℝ :=
  ((t.wins : ℝ) / (t.visits : ℝ)) + c * Real.sqrt (Real.log n / (t.visits : ℝ))

/-- The scan of `MCTSNode.best_child`: `best_score` starts at -1 and a
child replaces the best exactly when its UCB1 score is strictly
greater. -/
noncomputable def bestChildAux (n : Nat) (c : ℝ) :
    List MTree → ℝ → Option MTree → Option MTree
  | [], _, best => best
  | ch :: rest, best_score, best =>
    if best_score < ucb1 ch n c then bestChildAux n c rest (ucb1 ch n c) (some ch)
    else bestChildAux n c rest best_score best

/-- `MCTSNode.best_child` of mcts.py. -/
noncomputable def best_child (t : MTree) (c : ℝ) : Option MTree :=
  bestChildAux (sumVisits t.children) c t.children (-1) none

/-! ## Concrete inputs used by the witness theorems -/

/-- A 7-card input holding a royal flush. -/
def hand7W : List Card :=
  [⟨'A','S'⟩, ⟨'K','S'⟩, ⟨'Q','S'⟩, ⟨'J','S'⟩, ⟨'T','S'⟩, ⟨'2','D'⟩, ⟨'3','C'⟩]

/-- A royal-flush 5-card hand. -/
def royalW : List Card := [⟨'A','S'⟩, ⟨'K','S'⟩, ⟨'Q','S'⟩, ⟨'J','S'⟩, ⟨'T','S'⟩]

/-- The wheel hand AS 2D 3C 4H 5S. -/
def wheelW : List Card := [⟨'A','S'⟩, ⟨'2','D'⟩, ⟨'3','C'⟩, ⟨'4','H'⟩, ⟨'5','S'⟩]

/-- A 2-card player hand. -/
def playerW : List Card := [⟨'K','S'⟩, ⟨'K','D'⟩]

/-- A 2-card opponent hand. -/
def oppW : List Card := [⟨'7','C'⟩, ⟨'2','H'⟩]

/-- A 5-card board. -/
def boardW : List Card := [⟨'4','S'⟩, ⟨'9','D'⟩, ⟨'T','C'⟩, ⟨'J','H'⟩, ⟨'6','S'⟩]

/-- A concrete iteration oracle. -/
def oracleW : IterOracle := ⟨fun _ => 0, 3, 1/2⟩

/-! ## Properties of the Python comparison order on hand ranks -/

theorem listLt_cons_iff {a b : Nat} {as bs : List Nat} :
    listLt (a :: as) (b :: bs) = true ↔ a < b ∨ (a = b ∧ listLt as bs = true) := by
  simp only [listLt]
  split_ifs with h1 h2
  · simp [h1]
  · constructor
    · intro h; simp at h
    · rintro (h | ⟨h, _⟩) <;> omega
  · have h3 : a = b := by omega
    simp [h3, lt_irrefl]

theorem listLt_irrefl (l : List Nat) : listLt l l = false := by
  induction l with
  | nil => rfl
  | cons a as ih => simp [listLt, ih]

theorem listLt_trans : ∀ {a b c : List Nat},
    listLt a b = true → listLt b c = true → listLt a c = true := by
  intro a
  induction a with
  | nil =>
    intro b c hab hbc
    cases b with
    | nil => exact hbc
    | cons y ys =>
      cases c with
      | nil => simp [listLt] at hbc
      | cons z zs => rfl
  | cons x xs ih =>
    intro b c hab hbc
    cases b with
    | nil => simp [listLt] at hab
    | cons y ys =>
      cases c with
      | nil => simp [listLt] at hbc
      | cons z zs =>
        rw [listLt_cons_iff] at hab hbc ⊢
        rcases hab with h | ⟨rfl, h⟩
        · rcases hbc with h' | ⟨rfl, h'⟩
          · exact Or.inl (Nat.lt_trans h h')
          · exact Or.inl h
        · rcases hbc with h' | ⟨rfl, h'⟩
          · exact Or.inl h'
          · exact Or.inr ⟨rfl, ih h h'⟩

theorem listLt_total : ∀ {a b : List Nat},
    listLt a b = false → listLt b a = false → a = b := by
  intro a
  induction a with
  | nil =>
    intro b hab _
    cases b with
    | nil => rfl
    | cons y ys => simp [listLt] at hab
  | cons x xs ih =>
    intro b hab hba
    cases b with
    | nil => simp [listLt] at hba
    | cons y ys =>
      have h1 : ¬ (x < y ∨ (x = y ∧ listLt xs ys = true)) := by
        rw [← listLt_cons_iff, hab]; simp
      have h2 : ¬ (y < x ∨ (y = x ∧ listLt ys xs = true)) := by
        rw [← listLt_cons_iff, hba]; simp
      push_neg at h1 h2
      have hxy : x = y := by omega
      subst hxy
      have e1 : listLt xs ys = false := by
        cases h : listLt xs ys
        · rfl
        · exact absurd h (h1.2 rfl)
      have e2 : listLt ys xs = false := by
        cases h : listLt ys xs
        · rfl
        · exact absurd h (h2.2 rfl)
      rw [ih e1 e2]

theorem rankLt_iff {a b : HandRank} :
    rankLt a b = true ↔ a.1 < b.1 ∨ (a.1 = b.1 ∧ listLt a.2 b.2 = true) := by
  simp only [rankLt]
  split_ifs with h1 h2
  · simp [h1]
  · constructor
    · intro h; simp at h
    · rintro (h | ⟨h, _⟩) <;> omega
  · have h3 : a.1 = b.1 := by omega
    simp [h3, lt_irrefl]

theorem rankLt_irrefl (r : HandRank) : rankLt r r = false := by
  simp [rankLt, listLt_irrefl]

theorem rankLt_trans {a b c : HandRank} :
    rankLt a b = true → rankLt b c = true → rankLt a c = true := by
  intro hab hbc
  rw [rankLt_iff] at hab hbc ⊢
  rcases hab with h | ⟨he, h⟩
  · rcases hbc with h' | ⟨he', _⟩
    · exact Or.inl (lt_trans h h')
    · exact Or.inl (he' ▸ h)
  · rcases hbc with h' | ⟨he', h'⟩
    · exact Or.inl (he ▸ h')
    · exact Or.inr ⟨he.trans he', listLt_trans h h'⟩

theorem rankLt_total {a b : HandRank} :
    rankLt a b = false → rankLt b a = false → a = b := by
  intro hab hba
  have h1 : ¬ (a.1 < b.1 ∨ (a.1 = b.1 ∧ listLt a.2 b.2 = true)) := by
    rw [← rankLt_iff, hab]; simp
  have h2 : ¬ (b.1 < a.1 ∨ (b.1 = a.1 ∧ listLt b.2 a.2 = true)) := by
    rw [← rankLt_iff, hba]; simp
  push_neg at h1 h2
  have hfst : a.1 = b.1 := by omega
  have e1 : listLt a.2 b.2 = false := by
    cases h : listLt a.2 b.2
    · rfl
    · exact absurd h (h1.2 hfst)
  have e2 : listLt b.2 a.2 = false := by
    cases h : listLt b.2 a.2
    · rfl
    · exact absurd h (h2.2 hfst.symm)
  exact Prod.ext hfst (listLt_total e1 e2)

theorem rankLt_asymm {a b : HandRank} (h : rankLt a b = true) : rankLt b a = false := by
  cases hh : rankLt b a
  · rfl
  · have := rankLt_trans h hh
    rw [rankLt_irrefl] at this
    simp at this

theorem rankLt_ge_trans {a b c : HandRank}
    (hab : rankLt a b = false) (hbc : rankLt b c = false) : rankLt a c = false := by
  cases hac : rankLt a c
  · rfl
  · exfalso
    cases hba : rankLt b a
    · have heq := rankLt_total hab hba
      subst heq
      rw [hac] at hbc
      simp at hbc
    · have := rankLt_trans hba hac
      rw [this] at hbc
      simp at hbc

theorem maxRank_choice (a b : HandRank) : maxRank a b = a ∨ maxRank a b = b := by
  unfold maxRank
  split_ifs <;> simp

theorem maxRank_ge_left (a b : HandRank) : rankLt (maxRank a b) a = false := by
  unfold maxRank
  split_ifs with h
  · exact rankLt_asymm h
  · exact rankLt_irrefl a

theorem maxRank_ge_right (a b : HandRank) : rankLt (maxRank a b) b = false := by
  unfold maxRank
  split_ifs with h
  · exact rankLt_irrefl b
  · simpa using h

/-! ## The fold of Python max over a list of ranks -/

theorem foldMax_choice {α : Type} (f : α → HandRank) :
    ∀ (l : List α) (init : HandRank),
      l.foldl (fun best c => maxRank best (f c)) init = init ∨
      ∃ c ∈ l, l.foldl (fun best c => maxRank best (f c)) init = f c := by
  intro l
  induction l with
  | nil => intro init; exact Or.inl rfl
  | cons c cs ih =>
    intro init
    have hstep : (c :: cs).foldl (fun best d => maxRank best (f d)) init =
        cs.foldl (fun best d => maxRank best (f d)) (maxRank init (f c)) := rfl
    rcases ih (maxRank init (f c)) with h | ⟨d, hd, h⟩
    · rcases maxRank_choice init (f c) with hm | hm
      · exact Or.inl (by rw [hstep, h, hm])
      · exact Or.inr ⟨c, List.mem_cons_self c cs, by rw [hstep, h, hm]⟩
    · exact Or.inr ⟨d, List.mem_cons_of_mem c hd, by rw [hstep, h]⟩

theorem foldMax_ge_init {α : Type} (f : α → HandRank) :
    ∀ (l : List α) (init : HandRank),
      rankLt (l.foldl (fun best c => maxRank best (f c)) init) init = false := by
  intro l
  induction l with
  | nil => intro init; exact rankLt_irrefl init
  | cons c cs ih =>
    intro init
    have hstep : (c :: cs).foldl (fun best d => maxRank best (f d)) init =
        cs.foldl (fun best d => maxRank best (f d)) (maxRank init (f c)) := rfl
    rw [hstep]
    exact rankLt_ge_trans (ih (maxRank init (f c))) (maxRank_ge_left init (f c))

theorem foldMax_ge_mem {α : Type} (f : α → HandRank) :
    ∀ (l : List α) (init : HandRank) (c : α), c ∈ l →
      rankLt (l.foldl (fun best d => maxRank best (f d)) init) (f c) = false := by
  intro l
  induction l with
  | nil => intro init c hc; simp at hc
  | cons d ds ih =>
    intro init c hc
    have hstep : (d :: ds).foldl (fun best e => maxRank best (f e)) init =
        ds.foldl (fun best e => maxRank best (f e)) (maxRank init (f d)) := rfl
    rw [hstep]
    rcases List.mem_cons.mp hc with rfl | hc'
    · exact rankLt_ge_trans (foldMax_ge_init f ds (maxRank init (f c)))
        (maxRank_ge_right init (f c))
    · exact ih (maxRank init (f d)) c hc'

/-! ## Properties of combinations -/

theorem length_combinations {α : Type} :
    ∀ (l : List α) (n : Nat), (combinations n l).length = l.length.choose n := by
  intro l
  induction l with
  | nil =>
    intro n
    cases n with
    | zero => rfl
    | succ m => rfl
  | cons x xs ih =>
    intro n
    cases n with
    | zero => rfl
    | succ m =>
      simp only [combinations, List.length_append, List.length_map, ih,
        List.length_cons, Nat.choose_succ_succ]

theorem mem_combinations {α : Type} :
    ∀ (l c : List α) (n : Nat), c ∈ combinations n l ↔ c.Sublist l ∧ c.length = n := by
  intro l
  induction l with
  | nil =>
    intro c n
    cases n with
    | zero =>
      simp only [combinations, List.mem_singleton]
      constructor
      · rintro rfl; exact ⟨List.Sublist.refl _, rfl⟩
      · rintro ⟨hs, hl⟩
        exact List.eq_nil_of_length_eq_zero hl
    | succ m =>
      simp only [combinations, List.not_mem_nil, false_iff, not_and]
      intro hs hl
      have := List.eq_nil_of_sublist_nil hs
      subst this
      simp at hl
  | cons x xs ih =>
    intro c n
    cases n with
    | zero =>
      simp only [combinations, List.mem_singleton]
      constructor
      · rintro rfl; exact ⟨List.nil_sublist _, rfl⟩
      · rintro ⟨hs, hl⟩
        exact List.eq_nil_of_length_eq_zero hl
    | succ m =>
      simp only [combinations, List.mem_append, List.mem_map]
      constructor
      · rintro (⟨d, hd, rfl⟩ | hc)
        · rcases (ih d m).1 hd with ⟨hs, hl⟩
          exact ⟨List.Sublist.cons₂ x hs, by simp [hl]⟩
        · rcases (ih c (m+1)).1 hc with ⟨hs, hl⟩
          exact ⟨hs.cons x, hl⟩
      · rintro ⟨hs, hl⟩
        rcases List.sublist_cons_iff.mp hs with h | ⟨r, rfl, hr⟩
        · exact Or.inr ((ih c (m+1)).2 ⟨h, hl⟩)
        · exact Or.inl ⟨r, (ih r m).2 ⟨hr, by simpa using hl⟩, rfl⟩

theorem combinations_ne_nil {α : Type} (n : Nat) (l : List α) (h : n ≤ l.length) :
    combinations n l ≠ [] := by
  intro hnil
  have hlen := length_combinations l n
  rw [hnil] at hlen
  have hpos := Nat.choose_pos h
  simp at hlen
  omega

theorem combinations_eq_nil {α : Type} (n : Nat) (l : List α) (h : l.length < n) :
    combinations n l = [] := by
  have hlen := length_combinations l n
  rw [Nat.choose_eq_zero_of_lt h] at hlen
  exact List.eq_nil_of_length_eq_zero hlen

/-! ## The evaluator always produces a category in 0..9 -/

theorem rank_fst_nonneg (hand : List Card) : 0 ≤ (rank_five_card_hand hand).1 := by
  unfold rank_five_card_hand
  dsimp only
  split_ifs <;> norm_num

/-! ## Helper lemmas about the MCTS tree model -/

theorem backpropagate_visits (r : ℚ) : ∀ (t : MTree) (p : List Nat),
    (backpropagate r t p).visits = t.visits + 1 := by
  intro t p
  cases t with
  | mk w v u cs =>
    cases p with
    | nil => rfl
    | cons i p' =>
      show (backpropagate r (.mk w v u cs) (i :: p')).visits = v + 1
      rw [backpropagate]
      cases h : cs[i]? <;> rfl

theorem backpropagate_wins (r : ℚ) : ∀ (t : MTree) (p : List Nat),
    (backpropagate r t p).wins = t.wins + r := by
  intro t p
  cases t with
  | mk w v u cs =>
    cases p with
    | nil => rfl
    | cons i p' =>
      rw [backpropagate]
      cases h : cs[i]? <;> rfl

theorem expandAt_visits (f : Nat) : ∀ (t : MTree) (p : List Nat),
    (expandAt f t p).1.visits = t.visits := by
  intro t p
  cases t with
  | mk w v u cs =>
    cases p with
    | nil =>
      rw [expandAt]
      split_ifs <;> rfl
    | cons i p' =>
      rw [expandAt]
      cases h : cs[i]? <;> rfl

theorem expandAt_wins (f : Nat) : ∀ (t : MTree) (p : List Nat),
    (expandAt f t p).1.wins = t.wins := by
  intro t p
  cases t with
  | mk w v u cs =>
    cases p with
    | nil =>
      rw [expandAt]
      split_ifs <;> rfl
    | cons i p' =>
      rw [expandAt]
      cases h : cs[i]? <;> rfl

theorem mctsIteration_visits (pick : MTree → Nat) (f : Nat) (r : ℚ) (t : MTree) :
    (mctsIteration pick f r t).visits = t.visits + 1 := by
  unfold mctsIteration
  rw [backpropagate_visits, expandAt_visits]

theorem runIters_visits : ∀ (oracles : List IterOracle) (t : MTree),
    (runIters oracles t).visits = t.visits + oracles.length := by
  intro oracles
  induction oracles with
  | nil => intro t; rfl
  | cons o os ih =>
    intro t
    show (runIters os (mctsIteration o.pick o.freshU o.result t)).visits = t.visits + (os.length + 1)
    rw [ih, mctsIteration_visits]
    omega

theorem getElem?_some_mem {α : Type} {l : List α} {j : Nat} {c : α}
    (h : l[j]? = some c) : c ∈ l := by
  rcases List.getElem?_eq_some.mp h with ⟨hj, rfl⟩
  exact l.getElem_mem hj

theorem getElem?_some_lt {α : Type} {l : List α} {j : Nat} {c : α}
    (h : l[j]? = some c) : j < l.length := by
  rcases List.getElem?_eq_some.mp h with ⟨hj, _⟩
  exact hj

theorem set_concat_length {α : Type} : ∀ (l : List α) (a b : α),
    (l ++ [a]).set l.length b = l ++ [b] := by
  intro l a b
  induction l with
  | nil => rfl
  | cons x xs ih => simp [List.set, ih]

theorem backpropagate_prefix (r : ℚ) : ∀ (q rest : List Nat) (t s : MTree),
    subtreeAt t q = some s →
    ∃ s', subtreeAt (backpropagate r t (q ++ rest)) q = some s' ∧
      s'.visits = s.visits + 1 ∧ s'.wins = s.wins + r := by
  intro q
  induction q with
  | nil =>
    intro rest t s hs
    have ht : t = s := by
      have : some t = some s := hs
      exact Option.some.injEq t s ▸ (by injection this)
    subst ht
    exact ⟨backpropagate r t rest, rfl, backpropagate_visits r t rest,
      backpropagate_wins r t rest⟩
  | cons j q' ih =>
    intro rest t s hs
    cases t with
    | mk w v u cs =>
      rw [subtreeAt] at hs
      rw [show MTree.children (.mk w v u cs) = cs from rfl] at hs
      cases hj : cs[j]? with
      | none => rw [hj] at hs; cases hs
      | some c =>
        rw [hj] at hs
        have hjlen : j < cs.length := getElem?_some_lt hj
        rcases ih rest c s hs with ⟨s', hs', hv, hw⟩
        refine ⟨s', ?_, hv, hw⟩
        show subtreeAt (backpropagate r (.mk w v u cs) (j :: (q' ++ rest))) (j :: q') = some s'
        rw [backpropagate, hj]
        rw [subtreeAt]
        rw [show MTree.children (.mk (w+r) (v+1) u (cs.set j (backpropagate r c (q' ++ rest)))) =
              cs.set j (backpropagate r c (q' ++ rest)) from rfl]
        rw [List.getElem?_set_self hjlen]
        exact hs'

theorem goodTree_backpropagate {r : ℚ} (h0 : 0 ≤ r) (h1 : r ≤ 1) :
    ∀ (p : List Nat) (t : MTree), GoodTree t → GoodTree (backpropagate r t p) := by
  intro p
  induction p with
  | nil =>
    intro t ht
    cases t with
    | mk w v u cs =>
      cases ht with
      | mk hw hwv hcs =>
        rw [backpropagate]
        refine GoodTree.mk (by linarith) ?_ hcs
        push_cast
        linarith
  | cons j p' ih =>
    intro t ht
    cases t with
    | mk w v u cs =>
      cases ht with
      | mk hw hwv hcs =>
        rw [backpropagate]
        cases hj : cs[j]? with
        | none =>
          refine GoodTree.mk (by linarith) ?_ hcs
          push_cast
          linarith
        | some c =>
          refine GoodTree.mk (by linarith) ?_ ?_
          · push_cast
            linarith
          · intro y hy
            rcases List.mem_or_eq_of_mem_set hy with hy' | rfl
            · exact hcs y hy'
            · exact ih c (hcs c (getElem?_some_mem hj))

theorem goodTree_expandAt (f : Nat) : ∀ (p : List Nat) (t : MTree),
    GoodTree t → GoodTree (expandAt f t p).1 := by
  intro p
  induction p with
  | nil =>
    intro t ht
    cases t with
    | mk w v u cs =>
      cases ht with
      | mk hw hwv hcs =>
        rw [expandAt]
        split_ifs with hu
        · refine GoodTree.mk hw hwv ?_
          intro y hy
          rcases List.mem_append.mp hy with hy' | hy'
          · exact hcs y hy'
          · rw [List.mem_singleton.mp hy']
            exact GoodTree.mk le_rfl (by norm_num) (by intro z hz; cases hz)
        · exact GoodTree.mk hw hwv hcs
  | cons j p' ih =>
    intro t ht
    cases t with
    | mk w v u cs =>
      cases ht with
      | mk hw hwv hcs =>
        rw [expandAt]
        cases hj : cs[j]? with
        | none => exact GoodTree.mk hw hwv hcs
        | some c =>
          refine GoodTree.mk hw hwv ?_
          intro y hy
          rcases List.mem_or_eq_of_mem_set hy with hy' | rfl
          · exact hcs y hy'
          · exact ih c (hcs c (getElem?_some_mem hj))

theorem goodTree_iteration {r : ℚ} (h0 : 0 ≤ r) (h1 : r ≤ 1)
    (pick : MTree → Nat) (f : Nat) (t : MTree) (ht : GoodTree t) :
    GoodTree (mctsIteration pick f r t) :=
  goodTree_backpropagate h0 h1 _ _ (goodTree_expandAt f _ t ht)

theorem goodTree_runIters : ∀ (oracles : List IterOracle) (t : MTree),
    (∀ o ∈ oracles, 0 ≤ o.result ∧ o.result ≤ 1) → GoodTree t →
    GoodTree (runIters oracles t) := by
  intro oracles
  induction oracles with
  | nil => intro t _ ht; exact ht
  | cons o os ih =>
    intro t hres ht
    show GoodTree (runIters os (mctsIteration o.pick o.freshU o.result t))
    rcases hres o (List.mem_cons_self o os) with ⟨hr0, hr1⟩
    exact ih _ (fun o' ho' => hres o' (List.mem_cons_of_mem o ho'))
      (goodTree_iteration hr0 hr1 o.pick o.freshU t ht)

theorem goodTree_initRoot (u0 : Nat) : GoodTree (initRoot u0) :=
  GoodTree.mk le_rfl (by norm_num) (by intro z hz; cases hz)

theorem childVisited_iter (r : ℚ) (f : Nat) :
    ∀ (p : List Nat) (t : MTree), ChildVisited t →
      ChildVisited (backpropagate r (expandAt f t p).1 (expandAt f t p).2) := by
  intro p
  induction p with
  | nil =>
    intro t ht
    cases t with
    | mk w v u cs =>
      cases ht with
      | mk hv hrec =>
        rw [expandAt]
        split_ifs with hu
        · show ChildVisited
            (backpropagate r (.mk w v (u-1) (cs ++ [.mk 0 0 f []])) [cs.length])
          rw [backpropagate, List.getElem?_concat_length]
          dsimp only
          rw [set_concat_length]
          rw [show backpropagate r (.mk 0 0 f []) [] = .mk (0 + r) (0 + 1) f [] from rfl]
          refine ChildVisited.mk ?_ ?_
          · intro y hy
            rcases List.mem_append.mp hy with hy' | hy'
            · exact hv y hy'
            · rw [List.mem_singleton.mp hy']
              show 1 ≤ 0 + 1
              omega
          · intro y hy
            rcases List.mem_append.mp hy with hy' | hy'
            · exact hrec y hy'
            · rw [List.mem_singleton.mp hy']
              exact ChildVisited.mk (by intro z hz; cases hz) (by intro z hz; cases hz)
        · show ChildVisited (backpropagate r (.mk w v u cs) [])
          rw [backpropagate]
          exact ChildVisited.mk hv hrec
  | cons j p' ih =>
    intro t ht
    cases t with
    | mk w v u cs =>
      cases ht with
      | mk hv hrec =>
        rw [expandAt]
        cases hj : cs[j]? with
        | none =>
          show ChildVisited (backpropagate r (.mk w v u cs) [])
          rw [backpropagate]
          exact ChildVisited.mk hv hrec
        | some c =>
          have hjlen : j < cs.length := getElem?_some_lt hj
          show ChildVisited
            (backpropagate r (.mk w v u (cs.set j (expandAt f c p').1))
              (j :: (expandAt f c p').2))
          rw [backpropagate, List.getElem?_set_self hjlen]
          dsimp only
          rw [List.set_set]
          refine ChildVisited.mk ?_ ?_
          · intro y hy
            rcases List.mem_or_eq_of_mem_set hy with hy' | rfl
            · exact hv y hy'
            · rw [backpropagate_visits]
              omega
          · intro y hy
            rcases List.mem_or_eq_of_mem_set hy with hy' | rfl
            · exact hrec y hy'
            · exact ih c (hrec c (getElem?_some_mem hj))

theorem childVisited_iteration (pick : MTree → Nat) (f : Nat) (r : ℚ)
    (t : MTree) (ht : ChildVisited t) : ChildVisited (mctsIteration pick f r t) :=
  childVisited_iter r f (selectPath pick t) t ht

theorem childVisited_runIters : ∀ (oracles : List IterOracle) (t : MTree),
    ChildVisited t → ChildVisited (runIters oracles t) := by
  intro oracles
  induction oracles with
  | nil => intro t ht; exact ht
  | cons o os ih =>
    intro t ht
    exact ih _ (childVisited_iteration o.pick o.freshU o.result t ht)

theorem childVisited_initRoot (u0 : Nat) : ChildVisited (initRoot u0) :=
  ChildVisited.mk (by intro z hz; cases hz) (by intro z hz; cases hz)

theorem subtreeAt_goodTree : ∀ (q : List Nat) (t s : MTree),
    GoodTree t → subtreeAt t q = some s → GoodTree s := by
  intro q
  induction q with
  | nil =>
    intro t s ht hs
    have : t = s := by injection hs
    exact this ▸ ht
  | cons j q' ih =>
    intro t s ht hs
    cases t with
    | mk w v u cs =>
      rw [subtreeAt] at hs
      rw [show MTree.children (.mk w v u cs) = cs from rfl] at hs
      cases hj : cs[j]? with
      | none => rw [hj] at hs; cases hs
      | some c =>
        rw [hj] at hs
        cases ht with
        | mk hw hwv hcs => exact ih c s (hcs c (getElem?_some_mem hj)) hs

theorem subtreeAt_childVisited : ∀ (q : List Nat) (t s : MTree),
    ChildVisited t → subtreeAt t q = some s → ChildVisited s := by
  intro q
  induction q with
  | nil =>
    intro t s ht hs
    have : t = s := by injection hs
    exact this ▸ ht
  | cons j q' ih =>
    intro t s ht hs
    cases t with
    | mk w v u cs =>
      rw [subtreeAt] at hs
      rw [show MTree.children (.mk w v u cs) = cs from rfl] at hs
      cases hj : cs[j]? with
      | none => rw [hj] at hs; cases hs
      | some c =>
        rw [hj] at hs
        cases ht with
        | mk hv hrec => exact ih c s (hrec c (getElem?_some_mem hj)) hs

theorem selectPath_step (pick : MTree → Nat) (t : MTree)
    (hc : (t.untried == 0 && !t.children.isEmpty) = true)
    (h : pick t < t.children.length) :
    selectPath pick t = pick t :: selectPath pick (t.children.get ⟨pick t, h⟩) := by
  rw [selectPath.eq_def]
  simp [hc, h]

theorem selectPath_stop (pick : MTree → Nat) (t : MTree)
    (hc : (t.untried == 0 && !t.children.isEmpty) = false) :
    selectPath pick t = [] := by
  rw [selectPath.eq_def]
  simp [hc]

theorem selectPath_invalid (pick : MTree → Nat) (t : MTree)
    (h : ¬ pick t < t.children.length) :
    selectPath pick t = [] := by
  rw [selectPath.eq_def]
  simp [h]

theorem cond_true_parts {t : MTree} (hc : (t.untried == 0 && !t.children.isEmpty) = true) :
    t.untried = 0 ∧ t.children ≠ [] := by
  rcases (Bool.and_eq_true _ _).mp hc with ⟨h1, h2⟩
  refine ⟨beq_iff_eq.mp h1, ?_⟩
  intro hnil
  rw [hnil] at h2
  simp at h2

theorem selectPath_proper_prefix (pick : MTree → Nat) :
    ∀ (q : List Nat) (t : MTree), q <+: selectPath pick t → q ≠ selectPath pick t →
      ∃ s, subtreeAt t q = some s ∧ s.untried = 0 ∧ s.children ≠ [] := by
  intro q
  induction q with
  | nil =>
    intro t _ hne
    rcases hcond : (t.untried == 0 && !t.children.isEmpty) with _ | _
    · exact absurd (selectPath_stop pick t hcond).symm hne
    · rcases cond_true_parts hcond with ⟨h1, h2⟩
      exact ⟨t, rfl, h1, h2⟩
  | cons j q' ih =>
    intro t hpre hne
    rcases hcond : (t.untried == 0 && !t.children.isEmpty) with _ | _
    · rw [selectPath_stop pick t hcond] at hpre
      have := List.prefix_nil.mp hpre
      cases this
    · by_cases hp : pick t < t.children.length
      · rw [selectPath_step pick t hcond hp] at hpre hne
        rcases hpre with ⟨rest, hrest⟩
        rw [List.cons_append] at hrest
        injection hrest with hj htail
        subst hj
        have hq' : q' <+: selectPath pick (t.children.get ⟨pick t, hp⟩) := ⟨rest, htail⟩
        have hne' : q' ≠ selectPath pick (t.children.get ⟨pick t, hp⟩) := by
          intro heq
          exact hne (by rw [heq])
        rcases ih (t.children.get ⟨pick t, hp⟩) hq' hne' with ⟨s, hs, hs1, hs2⟩
        refine ⟨s, ?_, hs1, hs2⟩
        rw [subtreeAt, List.getElem?_eq_getElem hp]
        simpa using hs
      · rw [selectPath_invalid pick t hp] at hpre
        have := List.prefix_nil.mp hpre
        cases this

theorem bestChildAux_some (n : Nat) (c : ℝ) :
    ∀ (l : List MTree) (s : ℝ) (x : MTree),
      ∃ y, (y = x ∨ y ∈ l) ∧ bestChildAux n c l s (some x) = some y := by
  intro l
  induction l with
  | nil => intro s x; exact ⟨x, Or.inl rfl, rfl⟩
  | cons ch rest ih =>
    intro s x
    rw [bestChildAux]
    split_ifs with h
    · rcases ih (ucb1 ch n c) ch with ⟨y, hy, heq⟩
      refine ⟨y, ?_, heq⟩
      rcases hy with rfl | hy'
      · exact Or.inr (List.mem_cons_self _ _)
      · exact Or.inr (List.mem_cons_of_mem _ hy')
    · rcases ih s x with ⟨y, hy, heq⟩
      refine ⟨y, ?_, heq⟩
      rcases hy with rfl | hy'
      · exact Or.inl rfl
      · exact Or.inr (List.mem_cons_of_mem _ hy')

theorem ucb1_nonneg (t : MTree) (n : Nat) (c : ℝ)
    (hw : 0 ≤ t.wins) (hc : 0 ≤ c) : 0 ≤ ucb1 t n c := by
  unfold ucb1
  apply add_nonneg
  · apply div_nonneg
    · exact_mod_cast hw
    · exact Nat.cast_nonneg _
  · exact mul_nonneg hc (Real.sqrt_nonneg _)

theorem one_le_sumVisits {t : MTree} (hne : t.children ≠ [])
    (hch : ∀ ch ∈ t.children, 1 ≤ ch.visits) : 1 ≤ sumVisits t.children := by
  cases h : t.children with
  | nil => exact absurd h hne
  | cons c0 rest =>
    have h1 : 1 ≤ c0.visits := by
      have := hch c0 (by rw [h]; exact List.mem_cons_self _ _)
      exact this
    simp only [sumVisits, h, List.map_cons, List.sum_cons]
    omega

theorem best_child_mem (t : MTree) (hne : t.children ≠ [])
    (hch : ∀ ch ∈ t.children, 1 ≤ ch.visits ∧ 0 ≤ ch.wins) :
    ∃ ch ∈ t.children, best_child t (Real.sqrt 2) = some ch := by
  rcases h : t.children with _ | ⟨c0, rest⟩
  · exact absurd h hne
  · have h0 : (0:ℝ) ≤ ucb1 c0 (sumVisits (c0 :: rest)) (Real.sqrt 2) := by
      apply ucb1_nonneg
      · exact (hch c0 (by rw [h]; exact List.mem_cons_self _ _)).2
      · exact Real.sqrt_nonneg 2
    have hstep : best_child t (Real.sqrt 2) =
        bestChildAux (sumVisits (c0 :: rest)) (Real.sqrt 2) rest
          (ucb1 c0 (sumVisits (c0 :: rest)) (Real.sqrt 2)) (some c0) := by
      unfold best_child
      rw [h]
      rw [bestChildAux]
      rw [if_pos (by linarith)]
    rcases bestChildAux_some (sumVisits (c0 :: rest)) (Real.sqrt 2) rest
        (ucb1 c0 (sumVisits (c0 :: rest)) (Real.sqrt 2)) c0 with ⟨y, hy, heq⟩
    refine ⟨y, ?_, by rw [hstep, heq]⟩
    rcases hy with rfl | hy'
    · exact List.mem_cons_self _ _
    · exact List.mem_cons_of_mem _ hy'

theorem goodTree_bounds (t : MTree) (h : GoodTree t) :
    0 ≤ t.wins ∧ t.wins ≤ (t.visits : ℚ) := by
  cases t with
  | mk w v u cs =>
    cases h with
    | mk hw hwv _ => exact ⟨hw, hwv⟩

theorem childVisited_children (t : MTree) (h : ChildVisited t) :
    ∀ c ∈ t.children, 1 ≤ c.visits := by
  cases t with
  | mk w v u cs =>
    cases h with
    | mk hv _ => exact hv

/-! ## The claims -/

/-- C1: for every sequence of at least 5 cards, `evaluate_hand` returns
exactly the maximum, under the lexicographic comparison `rankLt` of
(category, tiebreak list), of `rank_five_card_hand` over every 5-card
sub-selection of the input (the 5-element sublists, which is what
`combinations 5` enumerates): the result is attained on some 5-card
sub-selection and is not below any of them; in particular a 7-card input
has 21 subsets, so the result is the maximum over all 21 and never lower
than the rank of any single 5-card subset. -/
theorem evaluate_hand_is_max (cards : List Card) (h5 : 5 ≤ cards.length) :
    (∀ c : List Card, c ∈ combinations 5 cards ↔ c.Sublist cards ∧ c.length = 5) ∧
    (∃ c ∈ combinations 5 cards, evaluate_hand cards = rank_five_card_hand c) ∧
    (∀ c ∈ combinations 5 cards,
      rankLt (evaluate_hand cards) (rank_five_card_hand c) = false) ∧
    (cards.length = 7 → (combinations 5 cards).length = 21) := by
  have hdef : evaluate_hand cards =
      (combinations 5 cards).foldl (fun best c => maxRank best (rank_five_card_hand c))
        ((-1 : Int), ([] : List Nat)) := rfl
  refine ⟨fun c => mem_combinations cards c 5, ?_, ?_, ?_⟩
  · rcases foldMax_choice rank_five_card_hand (combinations 5 cards)
        ((-1 : Int), ([] : List Nat)) with h | ⟨c, hc, h⟩
    · exfalso
      have hne := combinations_ne_nil 5 cards h5
      obtain ⟨c0, cs0, hcs⟩ : ∃ c0 cs0, combinations 5 cards = c0 :: cs0 := by
        cases hx : combinations 5 cards with
        | nil => exact absurd hx hne
        | cons a b => exact ⟨a, b, rfl⟩
      have hge := foldMax_ge_mem rank_five_card_hand (combinations 5 cards)
        ((-1 : Int), ([] : List Nat)) c0 (by rw [hcs]; exact List.mem_cons_self _ _)
      rw [h] at hge
      have hlt : rankLt ((-1 : Int), ([] : List Nat)) (rank_five_card_hand c0) = true := by
        rw [rankLt_iff]
        left
        have := rank_fst_nonneg c0
        show (-1 : Int) < (rank_five_card_hand c0).1
        omega
      rw [hge] at hlt
      simp at hlt
    · exact ⟨c, hc, by rw [hdef, h]⟩
  · intro c hc
    rw [hdef]
    exact foldMax_ge_mem rank_five_card_hand (combinations 5 cards)
      ((-1 : Int), ([] : List Nat)) c hc
  · intro h7
    rw [length_combinations, h7]
    rfl

/-- Witness for C1: the theorem applied to the concrete 7-card input `hand7W`. -/
theorem evaluate_hand_is_max_witness :
    5 ≤ hand7W.length ∧
    ((∀ c : List Card, c ∈ combinations 5 hand7W ↔ c.Sublist hand7W ∧ c.length = 5) ∧
     (∃ c ∈ combinations 5 hand7W, evaluate_hand hand7W = rank_five_card_hand c) ∧
     (∀ c ∈ combinations 5 hand7W,
       rankLt (evaluate_hand hand7W) (rank_five_card_hand c) = false) ∧
     (hand7W.length = 7 → (combinations 5 hand7W).length = 21)) :=
  ⟨by decide, evaluate_hand_is_max hand7W (by decide)⟩

/-- C2: for every pair of 2-card hands and every 5-card board,
`rollout_simulation` scores both 7-card hands (hand plus board) with the
evaluator and returns 1 exactly when the player ranks strictly higher,
0 exactly when strictly lower, and 1/2 exactly when the two ranks
(category and tiebreak sequence) are equal. -/
theorem rollout_simulation_trichotomy (ph oh board : List Card)
    (hp : ph.length = 2) (ho : oh.length = 2) (hb : board.length = 5) :
    (rollout_simulation ph oh board = 1 ↔
      rankLt (evaluate_hand (oh ++ board)) (evaluate_hand (ph ++ board)) = true) ∧
    (rollout_simulation ph oh board = 0 ↔
      rankLt (evaluate_hand (ph ++ board)) (evaluate_hand (oh ++ board)) = true) ∧
    (rollout_simulation ph oh board = 1/2 ↔
      evaluate_hand (ph ++ board) = evaluate_hand (oh ++ board)) := by
  have hdef : rollout_simulation ph oh board =
      (if rankLt (evaluate_hand (oh ++ board)) (evaluate_hand (ph ++ board)) then (1 : ℚ)
       else if rankLt (evaluate_hand (ph ++ board)) (evaluate_hand (oh ++ board)) then 0
       else 1/2) := rfl
  rcases hpo : rankLt (evaluate_hand (oh ++ board)) (evaluate_hand (ph ++ board)) with _ | _
  · rw [hpo] at hdef
    rcases hop : rankLt (evaluate_hand (ph ++ board)) (evaluate_hand (oh ++ board)) with _ | _
    · rw [hop] at hdef
      simp only [Bool.false_eq_true, if_false] at hdef
      refine ⟨⟨?_, ?_⟩, ⟨?_, ?_⟩, ⟨?_, ?_⟩⟩
      · intro h1; rw [hdef] at h1; norm_num at h1
      · intro h1; simp at h1
      · intro h1; rw [hdef] at h1; norm_num at h1
      · intro h1; simp at h1
      · intro _; exact rankLt_total hop hpo
      · intro _; exact hdef
    · rw [hop] at hdef
      simp only [Bool.false_eq_true, if_false, if_true] at hdef
      refine ⟨⟨?_, ?_⟩, ⟨?_, ?_⟩, ⟨?_, ?_⟩⟩
      · intro h1; rw [hdef] at h1; norm_num at h1
      · intro h1; simp at h1
      · intro _; rfl
      · intro _; exact hdef
      · intro h1; rw [hdef] at h1; norm_num at h1
      · intro heq
        exfalso
        rw [heq, rankLt_irrefl] at hop
        simp at hop
  · rw [hpo] at hdef
    simp only [if_true] at hdef
    refine ⟨⟨?_, ?_⟩, ⟨?_, ?_⟩, ⟨?_, ?_⟩⟩
    · intro _; rfl
    · intro _; exact hdef
    · intro h1; rw [hdef] at h1; norm_num at h1
    · intro h1
      exfalso
      have h2 := rankLt_asymm h1
      rw [hpo] at h2
      simp at h2
    · intro h1; rw [hdef] at h1; norm_num at h1
    · intro heq
      exfalso
      rw [heq, rankLt_irrefl] at hpo
      simp at hpo

/-- Witness for C2: the theorem applied to the concrete hands `playerW`,
`oppW` and board `boardW`. -/
theorem rollout_simulation_trichotomy_witness :
    (playerW.length = 2 ∧ oppW.length = 2 ∧ boardW.length = 5) ∧
    ((rollout_simulation playerW oppW boardW = 1 ↔
       rankLt (evaluate_hand (oppW ++ boardW)) (evaluate_hand (playerW ++ boardW)) = true) ∧
     (rollout_simulation playerW oppW boardW = 0 ↔
       rankLt (evaluate_hand (playerW ++ boardW)) (evaluate_hand (oppW ++ boardW)) = true) ∧
     (rollout_simulation playerW oppW boardW = 1/2 ↔
       evaluate_hand (playerW ++ boardW) = evaluate_hand (oppW ++ boardW))) :=
  ⟨⟨by decide, by decide, by decide⟩,
   rollout_simulation_trichotomy playerW oppW boardW (by decide) (by decide) (by decide)⟩

/-- C3: a backpropagation call adds the rollout result to `wins` and 1 to
`visits` on the simulated node and on every ancestor up to and including
the root (every node along the root-to-node path, i.e. at every prefix of
the path), unconditionally; consequently, with every iteration reaching
backpropagation (the model runs one backpropagation per oracle entry),
`root.visits` after `run_mcts` equals the number of iterations. -/
theorem backprop_adds_everywhere_root_visits_eq_iterations :
    (∀ (result : ℚ) (t : MTree) (q rest : List Nat) (s : MTree),
        subtreeAt t q = some s →
        ∃ s', subtreeAt (backpropagate result t (q ++ rest)) q = some s' ∧
          s'.visits = s.visits + 1 ∧ s'.wins = s.wins + result) ∧
    (∀ (u0 : Nat) (oracles : List IterOracle),
        (runIters oracles (initRoot u0)).visits = oracles.length) := by
  constructor
  · intro r t q rest s hs
    exact backpropagate_prefix r q rest t s hs
  · intro u0 oracles
    rw [runIters_visits]
    show 0 + oracles.length = oracles.length
    omega

/-- Witness for C3: the theorem applied to the concrete tree `initRoot 3`,
the empty path and one iteration oracle. -/
theorem backprop_adds_everywhere_root_visits_eq_iterations_witness :
    subtreeAt (initRoot 3) [] = some (initRoot 3) ∧
    (∃ s', subtreeAt (backpropagate 1 (initRoot 3) ([] ++ [])) [] = some s' ∧
      s'.visits = (initRoot 3).visits + 1 ∧ s'.wins = (initRoot 3).wins + 1) ∧
    (runIters [oracleW] (initRoot 3)).visits = [oracleW].length :=
  ⟨rfl,
   backprop_adds_everywhere_root_visits_eq_iterations.1 1 (initRoot 3) [] [] (initRoot 3) rfl,
   backprop_adds_everywhere_root_visits_eq_iterations.2 3 [oracleW]⟩

/-- C4: for every tree built by `run_mcts`, after every prefix of the
iterations (so at every point during and after the search),
`0 ≤ wins ≤ visits` holds at every node: both counters start at 0, only
backpropagation updates them, and each backpropagation adds a rollout
result — always one of 0, 1/2, 1 — to `wins` while adding 1 to `visits`;
neither counter is ever decremented. -/
theorem zero_le_wins_le_visits :
    (∀ ph oh board : List Card,
       rollout_simulation ph oh board = 0 ∨ rollout_simulation ph oh board = 1/2 ∨
       rollout_simulation ph oh board = 1) ∧
    (∀ (u0 : Nat) (oracles pfx : List IterOracle),
       (∀ o ∈ oracles, o.result = 0 ∨ o.result = 1/2 ∨ o.result = 1) →
       pfx <+: oracles → GoodTree (runIters pfx (initRoot u0))) := by
  constructor
  · intro ph oh board
    have hdef : rollout_simulation ph oh board =
        (if rankLt (evaluate_hand (oh ++ board)) (evaluate_hand (ph ++ board)) then (1 : ℚ)
         else if rankLt (evaluate_hand (ph ++ board)) (evaluate_hand (oh ++ board)) then 0
         else 1/2) := rfl
    rw [hdef]
    split_ifs
    · right; right; rfl
    · left; rfl
    · right; left; rfl
  · intro u0 oracles pfx hres hpre
    apply goodTree_runIters pfx _ _ (goodTree_initRoot u0)
    intro o ho
    rcases hres o (hpre.subset ho) with h | h | h <;> rw [h] <;> norm_num

/-- Witness for C4: the theorem applied to a concrete one-oracle run. -/
theorem zero_le_wins_le_visits_witness :
    (∀ o ∈ [oracleW], o.result = 0 ∨ o.result = 1/2 ∨ o.result = 1) ∧
    [oracleW] <+: [oracleW] ∧
    GoodTree (runIters [oracleW] (initRoot 4)) := by
  have hres : ∀ o ∈ [oracleW], o.result = 0 ∨ o.result = 1/2 ∨ o.result = 1 := by
    intro o ho
    rw [List.mem_singleton] at ho
    subst ho
    right; left; rfl
  exact ⟨hres, List.prefix_refl _,
    zero_le_wins_le_visits.2 4 [oracleW] [oracleW] hres (List.prefix_refl _)⟩

/-- C5: `run_mcts` returns 0 when `root.visits = 0` — in particular when
`iterations = 0` — without performing the division (the division is behind
the `root.visits == 0` guard), and otherwise returns
`root.wins / root.visits`, which lies in [0, 1]. -/
theorem run_mcts_zero_guard_and_range (u0 : Nat) (oracles : List IterOracle)
    (hres : ∀ o ∈ oracles, o.result = 0 ∨ o.result = 1/2 ∨ o.result = 1) :
    ((runIters oracles (initRoot u0)).visits = 0 → run_mcts_model u0 oracles = 0) ∧
    (oracles = [] → run_mcts_model u0 oracles = 0) ∧
    ((runIters oracles (initRoot u0)).visits ≠ 0 →
      run_mcts_model u0 oracles =
        (runIters oracles (initRoot u0)).wins /
          ((runIters oracles (initRoot u0)).visits : ℚ)) ∧
    0 ≤ run_mcts_model u0 oracles ∧ run_mcts_model u0 oracles ≤ 1 := by
  have hdef : run_mcts_model u0 oracles =
      (if (runIters oracles (initRoot u0)).visits = 0 then (0 : ℚ)
       else (runIters oracles (initRoot u0)).wins /
         ((runIters oracles (initRoot u0)).visits : ℚ)) := rfl
  have hgood : GoodTree (runIters oracles (initRoot u0)) := by
    apply goodTree_runIters oracles _ _ (goodTree_initRoot u0)
    intro o ho
    rcases hres o ho with h | h | h <;> rw [h] <;> norm_num
  rcases goodTree_bounds _ hgood with ⟨hw0, hwv⟩
  refine ⟨?_, ?_, ?_, ?_⟩
  · intro hv
    rw [hdef, if_pos hv]
  · intro hnil
    subst hnil
    rw [hdef]
    rfl
  · intro hv
    rw [hdef, if_neg hv]
  · rw [hdef]
    split_ifs with hv
    · norm_num
    · have hvpos : (0 : ℚ) < ((runIters oracles (initRoot u0)).visits : ℚ) := by
        have : 0 < (runIters oracles (initRoot u0)).visits := Nat.pos_of_ne_zero hv
        exact_mod_cast this
      constructor
      · exact div_nonneg hw0 (le_of_lt hvpos)
      · rw [div_le_one hvpos]
        exact hwv

/-- Witness for C5: the theorem applied to the degenerate zero-iteration
run, where the guard fires. -/
theorem run_mcts_zero_guard_and_range_witness :
    (∀ o ∈ ([] : List IterOracle), o.result = 0 ∨ o.result = 1/2 ∨ o.result = 1) ∧
    (((runIters [] (initRoot 7)).visits = 0 → run_mcts_model 7 [] = 0) ∧
     (([] : List IterOracle) = [] → run_mcts_model 7 [] = 0) ∧
     ((runIters [] (initRoot 7)).visits ≠ 0 →
       run_mcts_model 7 [] =
         (runIters [] (initRoot 7)).wins / ((runIters [] (initRoot 7)).visits : ℚ)) ∧
     0 ≤ run_mcts_model 7 [] ∧ run_mcts_model 7 [] ≤ 1) := by
  have hres : ∀ o ∈ ([] : List IterOracle),
      o.result = 0 ∨ o.result = 1/2 ∨ o.result = 1 := by
    intro o ho
    simp at ho
  exact ⟨hres, run_mcts_zero_guard_and_range 7 [] hres⟩

/-- C6: for every 5-card hand that is both a flush (all suits identical,
`len(set(suits)) == 1`) and a straight (`check_straight` accepts its
values), `rank_five_card_hand` takes the first branch of the precedence
chain: category 9 (royal flush) when the highest value is 14, category 8
(straight flush) otherwise, with the sorted values as tiebreak. -/
theorem straight_flush_takes_precedence (hand : List Card) (h5 : hand.length = 5)
    (hf : ((pyDedup (hand.map Card.suit)).length == 1) = true)
    (hs : check_straight (sortDesc (hand.map cardValue)) = true) :
    (listMax (sortDesc (hand.map cardValue)) = 14 →
      rank_five_card_hand hand = (9, sortDesc (hand.map cardValue))) ∧
    (listMax (sortDesc (hand.map cardValue)) ≠ 14 →
      rank_five_card_hand hand = (8, sortDesc (hand.map cardValue))) := by
  have hdef : rank_five_card_hand hand =
      (if ((pyDedup (hand.map Card.suit)).length == 1) &&
            check_straight (sortDesc (hand.map cardValue)) then
        if listMax (sortDesc (hand.map cardValue)) == 14
        then ((9 : Int), sortDesc (hand.map cardValue))
        else ((8 : Int), sortDesc (hand.map cardValue))
      else rank_five_card_hand hand) := by
    unfold rank_five_card_hand
    dsimp only
    rw [hf, hs]
    simp
  constructor
  · intro h14
    rw [hdef, hf, hs]
    simp [h14]
  · intro h14
    rw [hdef, hf, hs]
    simp [h14]

/-- Witness for C6: the theorem applied to the royal flush `royalW`. -/
theorem straight_flush_takes_precedence_witness :
    (royalW.length = 5 ∧
     ((pyDedup (royalW.map Card.suit)).length == 1) = true ∧
     check_straight (sortDesc (royalW.map cardValue)) = true) ∧
    ((listMax (sortDesc (royalW.map cardValue)) = 14 →
       rank_five_card_hand royalW = (9, sortDesc (royalW.map cardValue))) ∧
     (listMax (sortDesc (royalW.map cardValue)) ≠ 14 →
       rank_five_card_hand royalW = (8, sortDesc (royalW.map cardValue)))) :=
  ⟨⟨by decide, by decide, by decide⟩,
   straight_flush_takes_precedence royalW (by decide) (by decide) (by decide)⟩

/-- C7: the wheel hand AS 2D 3C 4H 5S, which is not a flush
(`len(set(suits)) == 1` fails), is ranked as a straight with category 4;
the window scan of `check_straight` alone rejects its distinct descending
values `[14, 5, 4, 3, 2]` (no 5-window spans exactly 4), so the
classification comes from the wheel subset test `{14, 2, 3, 4, 5}`, the
Ace acting low for straight detection only, while the tiebreak sequence
keeps the Ace as 14. -/
theorem wheel_is_straight_category_four :
    rank_five_card_hand wheelW = (4, [14, 5, 4, 3, 2]) ∧
    ((pyDedup (wheelW.map Card.suit)).length == 1) = false ∧
    sortDesc (wheelW.map cardValue) = [14, 5, 4, 3, 2] ∧
    straightWindow (sortDesc (pyDedup [14, 5, 4, 3, 2])) = false ∧
    ([14, 2, 3, 4, 5].all (fun v => (sortDesc (pyDedup [14, 5, 4, 3, 2])).contains v)) = true ∧
    check_straight [14, 5, 4, 3, 2] = true := by
  refine ⟨by decide, by decide, by decide, by decide, by decide, by decide⟩

/-- C8: the concrete evaluation behind the code bug.  `parse_cards`
rejects the malformed token `JDX` (length 3) by returning the usage
string, but `main` never inspects the return value: with a correct
argument count it always proceeds to call `run_mcts` on whatever
`parse_cards` returned, so the malformed input reaches the search (where
Python then crashes with a `TypeError` instead of printing the usage
message). -/
theorem main_searches_on_malformed_token :
    parse_cards "JDX" "QS" = Sum.inl "Cards must be in format like 'JD' or 'QS'" ∧
    main_model ["main.py", "JDX", "QS"] =
      MainOutcome.search (Sum.inl "Cards must be in format like 'JD' or 'QS'") := by
  constructor
  · rfl
  · rfl

/-- C9: during every execution of `run_mcts` — every tree `runIters`
reaches, for every draw of the oracles — the `ChildVisited` invariant
holds: each child is backpropagated in the iteration that creates it, so
every non-root node has `visits ≥ 1` (and with in-range rollout results
also `wins ≥ 0` via `GoodTree`); at every descent point of the selection
loop (every proper prefix of the selection path) the node has at least one
child and every child has `visits ≥ 1`; and on any such node `best_child`
with `c = sqrt 2` faces a positive UCB1 log argument (`N ≥ 1`), nonzero
divisors (`visits ≠ 0` for every child), and never returns `none` — it
returns one of the children. -/
theorem selection_ucb1_never_degenerate :
    (∀ (u0 : Nat) (oracles : List IterOracle),
        ChildVisited (runIters oracles (initRoot u0)) ∧
        ((∀ o ∈ oracles, o.result = 0 ∨ o.result = 1/2 ∨ o.result = 1) →
          GoodTree (runIters oracles (initRoot u0)))) ∧
    (∀ (pick : MTree → Nat) (t : MTree) (q : List Nat),
        q <+: selectPath pick t → q ≠ selectPath pick t →
        ∃ s, subtreeAt t q = some s ∧ s.untried = 0 ∧ s.children ≠ [] ∧
          (ChildVisited t → ∀ ch ∈ s.children, 1 ≤ ch.visits)) ∧
    (∀ t : MTree, t.children ≠ [] →
        (∀ ch ∈ t.children, 1 ≤ ch.visits ∧ 0 ≤ ch.wins) →
        1 ≤ sumVisits t.children ∧
        (∀ ch ∈ t.children, (ch.visits : ℝ) ≠ 0) ∧
        ∃ ch ∈ t.children, best_child t (Real.sqrt 2) = some ch) := by
  refine ⟨?_, ?_, ?_⟩
  · intro u0 oracles
    constructor
    · exact childVisited_runIters oracles _ (childVisited_initRoot u0)
    · intro hres
      apply goodTree_runIters oracles _ _ (goodTree_initRoot u0)
      intro o ho
      rcases hres o ho with h | h | h <;> rw [h] <;> norm_num
  · intro pick t q hpre hne
    rcases selectPath_proper_prefix pick q t hpre hne with ⟨s, hs, hu, hc⟩
    refine ⟨s, hs, hu, hc, ?_⟩
    intro hcv
    exact childVisited_children s (subtreeAt_childVisited q t s hcv hs)
  · intro t hne hch
    refine ⟨one_le_sumVisits hne (fun ch h => (hch ch h).1), ?_, best_child_mem t hne hch⟩
    intro ch h
    have h1 : 1 ≤ ch.visits := (hch ch h).1
    have : (0 : ℝ) < (ch.visits : ℝ) := by exact_mod_cast Nat.lt_of_lt_of_le Nat.zero_lt_one h1
    exact ne_of_gt this

/-- Witness for C9: the theorem applied to a concrete two-iteration run,
a concrete selection step, and a concrete node with one visited child. -/
theorem selection_ucb1_never_degenerate_witness :
    (ChildVisited (runIters [oracleW, oracleW] (initRoot 2))) ∧
    (([] : List Nat) <+: selectPath (fun _ => 0) (MTree.mk 1 2 0 [MTree.mk 1 1 1 []]) ∧
     ([] : List Nat) ≠ selectPath (fun _ => 0) (MTree.mk 1 2 0 [MTree.mk 1 1 1 []]) ∧
     (∃ s, subtreeAt (MTree.mk 1 2 0 [MTree.mk 1 1 1 []]) [] = some s ∧
       s.untried = 0 ∧ s.children ≠ [] ∧
       (ChildVisited (MTree.mk 1 2 0 [MTree.mk 1 1 1 []]) →
         ∀ ch ∈ s.children, 1 ≤ ch.visits))) ∧
    ((MTree.mk 1 2 0 [MTree.mk 1 1 1 []]).children ≠ [] ∧
     1 ≤ sumVisits (MTree.mk 1 2 0 [MTree.mk 1 1 1 []]).children ∧
     (∀ ch ∈ (MTree.mk 1 2 0 [MTree.mk 1 1 1 []]).children, (ch.visits : ℝ) ≠ 0) ∧
     ∃ ch ∈ (MTree.mk 1 2 0 [MTree.mk 1 1 1 []]).children,
       best_child (MTree.mk 1 2 0 [MTree.mk 1 1 1 []]) (Real.sqrt 2) = some ch) := by
  have hsel : selectPath (fun _ => 0) (MTree.mk 1 2 0 [MTree.mk 1 1 1 []]) = [0] := by
    rw [selectPath.eq_def]
    norm_num [MTree.untried, MTree.children]
    rw [selectPath.eq_def]
    norm_num [MTree.untried, MTree.children]
  have hne : (MTree.mk 1 2 0 [MTree.mk 1 1 1 []]).children ≠ [] := by
    show [MTree.mk 1 1 1 []] ≠ []
    simp
  have hch : ∀ ch ∈ (MTree.mk 1 2 0 [MTree.mk 1 1 1 []]).children,
      1 ≤ ch.visits ∧ 0 ≤ ch.wins := by
    intro ch h
    rw [show (MTree.mk 1 2 0 [MTree.mk 1 1 1 []]).children = [MTree.mk 1 1 1 []] from rfl,
      List.mem_singleton] at h
    subst h
    exact ⟨le_refl 1, by norm_num [MTree.wins]⟩
  have hpre : ([] : List Nat) <+: selectPath (fun _ => 0) (MTree.mk 1 2 0 [MTree.mk 1 1 1 []]) :=
    List.nil_prefix
  have hnesel : ([] : List Nat) ≠ selectPath (fun _ => 0) (MTree.mk 1 2 0 [MTree.mk 1 1 1 []]) := by
    rw [hsel]
    simp
  refine ⟨(selection_ucb1_never_degenerate.1 2 [oracleW, oracleW]).1,
    ⟨hpre, hnesel, selection_ucb1_never_degenerate.2.1 (fun _ => 0) _ [] hpre hnesel⟩,
    ⟨hne, selection_ucb1_never_degenerate.2.2 _ hne hch⟩⟩

/-- C10: for every input of fewer than 5 cards, `evaluate_hand` raises no
error: the combination loop is empty and the sentinel `(-1, [])` is
returned; the sentinel compares strictly below the rank of every 5-card
hand, since every category `rank_five_card_hand` produces is at least 0. -/
theorem evaluate_hand_short_input (cards : List Card) (h : cards.length < 5) :
    evaluate_hand cards = ((-1 : Int), ([] : List Nat)) ∧
    (∀ hand : List Card,
      rankLt ((-1 : Int), ([] : List Nat)) (rank_five_card_hand hand) = true) := by
  constructor
  · have hnil := combinations_eq_nil 5 cards h
    have hdef : evaluate_hand cards =
        (combinations 5 cards).foldl (fun best c => maxRank best (rank_five_card_hand c))
          ((-1 : Int), ([] : List Nat)) := rfl
    rw [hdef, hnil]
    rfl
  · intro hand
    rw [rankLt_iff]
    left
    have := rank_fst_nonneg hand
    show (-1 : Int) < (rank_five_card_hand hand).1
    omega

/-- Witness for C10: the theorem applied to the 2-card input `playerW`. -/
theorem evaluate_hand_short_input_witness :
    playerW.length < 5 ∧
    (evaluate_hand playerW = ((-1 : Int), ([] : List Nat)) ∧
     (∀ hand : List Card,
       rankLt ((-1 : Int), ([] : List Nat)) (rank_five_card_hand hand) = true)) :=
  ⟨by decide, evaluate_hand_short_input playerW (by decide)⟩
